import Mathlib

/-!
Verification of the osgrep incremental indexing pipeline.

This file gives a shallow embedding, in Lean 4, of the client-side
orchestration code of the osgrep repository: the gitignore filter
(`src/lib/store-helpers.ts`, class `GitIgnoreFilter`), the streamed git
file listing (`NodeGit.getGitFiles`), the paginated remote listing and the
diff-and-upload engine (`src/utils.ts`), the metadata store (modelled from
the spec, its implementation is not part of the sources), and the
tree-sitter chunker with its paragraph fallback.

Modelling conventions:
* JS strings are Lean `String`s; where character-level scanning matters
  (buffers, regex splitting) we work on `List Char` (`String.data`).
* Node `Buffer`s are `List Nat` (byte lists).
* External effects (the filesystem, the remote store client, the network,
  the tree-sitter runtime, the SHA-256 hash of `node:crypto`) are passed as
  explicit function parameters or oracle records, so every embedded
  operation is a total computable function of its inputs.
* Async code is modelled by its sequential linearization: JavaScript is
  single-threaded and each shared-counter update in the sources is a single
  synchronous statement, so the final aggregates of the concurrent loop
  equal those of the sequential fold.
-/

deriving instance DecidableEq for Except

namespace Osgrep

/-! ## Generic string and list helpers -/

/-- The whitespace characters of the JS regex class `\s` (also the set
removed by `String.prototype.trim`). -/
def jsWhitespace : List Char :=
  [' ', '\t', '\n', '\r', '\x0b', '\x0c',
   '\u00A0', '\u1680', '\u2000', '\u2001', '\u2002', '\u2003', '\u2004',
   '\u2005', '\u2006', '\u2007', '\u2008', '\u2009', '\u200A', '\u2028',
   '\u2029', '\u202F', '\u205F', '\u3000', '\uFEFF']

def isWS (c : Char) : Bool := jsWhitespace.contains c

/-- Model of JS `string.split(sep)` on character lists: `splitChar sep l` is JS `string.split(sep)` on character lists: it always
returns at least one (possibly empty) part. -/
def splitChar (sep : Char) : List Char → List (List Char)
  | [] => [[]]
  | c :: cs =>
    match splitChar sep cs with
    | [] => [[c]]
    | h :: t => if c = sep then [] :: h :: t else (c :: h) :: t

/-- Prepend `x` to the first part of a split (used to state how splitting
distributes over append). -/
def consHead (x : List Char) : List (List Char) → List (List Char)
  | [] => [x]
  | h :: t => (x ++ h) :: t

def joinCharSlash (segs : List (List Char)) : List Char :=
  List.intercalate ['/'] segs

/-! ## GitIgnoreFilter (`src/lib/store-helpers.ts`, lines 171-227)

The `ignore` npm package is an external collaborator; it is modelled by its
documented gitignore semantics: a rule list where `!` negates, a trailing
`/` restricts a pattern to directories, a leading or inner `/` anchors the
pattern at the root, an unanchored pattern matches a basename at any depth,
`*` and `?` are the in-segment wildcards, a matched directory also ignores
everything beneath it (the package tests every ancestor of the queried
path), and `ignores()` rejects (throws a `RangeError` on) a pathname that
is empty, absolute, or resolves to the current or a parent directory
(`.`/`..`-prefixed). Character classes and `**` are not modelled; no claim
below depends on them. -/

inductive StatRes
  | file
  | dir
  | err
deriving DecidableEq, Repr

/-- Length of the longest common prefix of two segment lists. -/
def commonPrefixLen : List String → List String → Nat
  | a :: as, b :: bs => if a = b then commonPrefixLen as bs + 1 else 0
  | _, _ => 0

/-- Model of `path.relative(root, fp)` on normalized absolute paths given as segment
lists: climb out of the uncommon part of `root` with `..` segments, then
descend into `fp`. -/
def relSegments (root fp : List String) : List String :=
  let c := commonPrefixLen root fp
  List.replicate (root.length - c) ".." ++ fp.drop c

/-- Joining segments with `/` (extensionally `String.intercalate "/"`, written
recursively). -/
def joinSlash : List String → String
  | [] => ""
  | [s] => s
  | s :: rest => s ++ "/" ++ joinSlash rest

/-- Embedding of `normalizePathForIgnore` (store-helpers.ts line 184): the relative path
with `/` separators. -/
def relString (root fp : List String) : String := joinSlash (relSegments root fp)

/-- The `ignore` package's invalid-pathname test (its `REGEX_TEST_INVALID_PATH`):
empty, or a run of dots followed by `/` at the start (this covers absolute
paths and `./`/`../` prefixes), or a string of only dots. -/
def invalidIgnorePath (s : String) : Bool :=
  match s.data with
  | [] => true
  | l => ((l.dropWhile (fun c => c = '.')).head? = some '/') || l.all (fun c => c = '.')

/-- In-segment glob matching with `*` and `?`; the fuel (first) argument
makes the recursion structural — every step shrinks the pattern or the
string, so `globMatch` passes enough for the fuel-exhausted equation to be
unreachable. -/
def globMatchF : Nat → List Char → List Char → Bool
  | _, [], [] => true
  | 0, _, _ => false
  | fuel + 1, '*' :: ps, [] => globMatchF fuel ps []
  | fuel + 1, '*' :: ps, c :: ss =>
    globMatchF fuel ps (c :: ss) || globMatchF fuel ('*' :: ps) ss
  | fuel + 1, '?' :: ps, _ :: ss => globMatchF fuel ps ss
  | fuel + 1, p :: ps, c :: ss => decide (p = c) && globMatchF fuel ps ss
  | _ + 1, _ :: _, [] => false
  | _ + 1, [], _ :: _ => false

def globMatch (p s : List Char) : Bool := globMatchF (p.length + s.length + 1) p s

/-- Segment-by-segment matching of an anchored pattern. -/
def listMatch : List (List Char) → List (List Char) → Bool
  | [], [] => true
  | p :: ps, s :: ss => globMatch p s && listMatch ps ss
  | _, _ => false

/-- Whether one (non-negated) gitignore pattern matches one pathname.  The
pathname denotes a directory iff it ends with `/`. -/
def patternMatches (core : String) (p : String) : Bool :=
  let cd := core.data
  let dirOnly := cd.getLast? = some '/'
  let c1 := if dirOnly then cd.dropLast else cd
  let anchoredLead := c1.head? = some '/'
  let c2 := if anchoredLead then c1.tail else c1
  let anchored := anchoredLead || c2.contains '/'
  let pd := p.data
  let pIsDir := pd.getLast? = some '/'
  let pSegs := splitChar '/' (if pIsDir then pd.dropLast else pd)
  if dirOnly && !pIsDir then false
  else if anchored then listMatch (splitChar '/' c2) pSegs
  else
    match pSegs.getLast? with
    | some lastSeg => globMatch c2 lastSeg
    | none => false

/-- One rule applied to one pathname: a match decides ignored (`some true`)
or, for a `!`-negated rule, re-included (`some false`); otherwise the
accumulated decision stands. -/
def ruleStep (s : String) (acc : Option Bool) (pat : String) : Option Bool :=
  let pd := pat.data
  let neg := pd.head? = some '!'
  let core := if neg then String.mk pd.tail else pat
  if patternMatches core s then some (!neg) else acc

/-- Run the rule list over one pathname; the last matching rule decides
(`some true` = ignored, `some false` = re-included, `none` = undecided). -/
def matchLevel (pats : List String) (s : String) : Option Bool :=
  pats.foldl (ruleStep s) none

/-- The queried pathname together with each proper ancestor directory
(ancestors carry a trailing `/`). -/
def ancestorStrings (p : String) : List String :=
  let pd := p.data
  let pIsDir := pd.getLast? = some '/'
  let segs := splitChar '/' (if pIsDir then pd.dropLast else pd)
  ((List.range (segs.length - 1)).map
    (fun i => String.mk (joinCharSlash (segs.take (i + 1)) ++ ['/']))) ++ [p]

/-- gitignore semantics of `ignore().add(pats).ignores(p)` for a valid
pathname: `p` is ignored iff it, or one of its ancestor directories, is
decided "ignored" by the rule list (an excluded parent directory cannot be
re-included below). -/
def ignoresCore (pats : List String) (p : String) : Bool :=
  (ancestorStrings p).any (fun a => matchLevel pats a = some true)

/-- Model of `ignores()` including the package's pathname validity check. -/
def ignoresE (pats : List String) (p : String) : Except String Bool :=
  if invalidIgnorePath p then
    Except.error "RangeError: path should be a path.relative()d string"
  else Except.ok (ignoresCore pats p)

/-- Embedding of `GitIgnoreFilter.isIgnored` (store-helpers.ts lines 194-211): relativize,
return `false` for the root itself, probe the filesystem (`st`) for
directoriness — a failed stat is caught and treated as "not a directory" —
append `/` for directories, and query the rule set. -/
def isIgnoredM (pats : List String) (st : List String → StatRes)
    (fp root : List String) : Except String Bool :=
  let normalizedPath := relString root fp
  if normalizedPath = "" then Except.ok false
  else
    let isDirectory := st fp = StatRes.dir
    let pathToCheck := if isDirectory then normalizedPath ++ "/" else normalizedPath
    ignoresE pats pathToCheck

/-! ## NodeGit.getGitFiles (`src/lib/store-helpers.ts`, lines 324-358)

The generator receives the child process's stdout as a sequence of chunks,
keeps the trailing partial record in `buffer` across chunks
(`parts = buffer.split("\0"); buffer = parts.pop() || ""`), yields every
non-empty completed record joined onto `dirRoot`, yields a trailing
unterminated record at end of stream, and then awaits the process's
`exit`/`error` event before completing. -/

def nulChar : Char := '\x00'

/-- The per-chunk buffer loop of `getGitFiles`: given the carried buffer and
the remaining stdout chunks, the records yielded (before joining onto the
root). -/
def gitYieldAux (buf : List Char) : List (List Char) → List (List Char)
  | [] => if buf.isEmpty then [] else [buf]
  | ch :: rest =>
    let parts := splitChar nulChar (buf ++ ch)
    parts.dropLast.filter (fun p => !p.isEmpty) ++ gitYieldAux (parts.getLastD []) rest

/-- All paths yielded by `getGitFiles` for a given chunk sequence; `join`
abstracts `path.join(dirRoot, ·)`. -/
def gitFilesYields (join : List Char → List Char) (chunks : List (List Char)) :
    List (List Char) :=
  (gitYieldAux [] chunks).map join

/-- Observable events of one `getGitFiles` run, in order: the yields, then
the await of the child's exit (or error) event, then generator completion. -/
inductive GitEv
  | yielded (p : List Char)
  | waitedExit
  | completed
deriving DecidableEq, Repr

def getGitFilesTrace (join : List Char → List Char) (chunks : List (List Char)) :
    List GitEv :=
  (gitFilesYields join chunks).map GitEv.yielded ++ [GitEv.waitedExit, GitEv.completed]

/-! ## listStoreFileHashes (`src/utils.ts`, lines 69-90)

The remote client is a function from the `after` cursor to a response page.
The `do`/`while` loop is modelled with explicit fuel; `none` means the loop
was still running when the fuel ran out (the JS loop would still be
iterating), so termination behaviour is observable. -/

/-- The value found at `metadata.hash`, which need not be a string. -/
inductive JsonV
  | str (s : String)
  | other
deriving DecidableEq, Repr

structure FileEntry where
  /-- `external_id`, possibly `null`/absent. -/
  external_id : Option String
  /-- `(f.metadata || {}).hash`: `none` when the metadata object is absent or
  has no `hash` field. -/
  hashField : Option JsonV
deriving DecidableEq, Repr

structure Pagn where
  has_more : Bool
  last_cursor : Option String
deriving DecidableEq, Repr

structure Page where
  data : List FileEntry
  pagination : Option Pagn
deriving DecidableEq, Repr

/-- Replace-or-append insertion, the behaviour of JS `Map.prototype.set`. -/
def upsertP {α : Type} : List (String × α) → String → α → List (String × α)
  | [], k, v => [(k, v)]
  | (k2, v2) :: rest, k, v =>
    if k2 = k then (k, v) :: rest else (k2, v2) :: upsertP rest k v

/-- JS `Map.prototype.get` on the association-list model. -/
def lookupP {α : Type} : List (String × α) → String → Option α
  | [], _ => none
  | (k2, v) :: rest, k => if k2 = k then some v else lookupP rest k

/-- JS truthiness of a string that may be `null`/`undefined`. -/
def truthy : Option String → Bool
  | none => false
  | some s => s ≠ ""

/-- Embedding of `typeof metadata?.hash === "string" ? metadata.hash : undefined`. -/
def entryHash (e : FileEntry) : Option String :=
  match e.hashField with
  | some (JsonV.str s) => some s
  | _ => none

/-- The loop body for one listed entry: skip a falsy (`null` or empty)
`external_id`, otherwise record the entry's hash (or `undefined`). -/
def insertEntry (acc : List (String × Option String)) (e : FileEntry) :
    List (String × Option String) :=
  match e.external_id with
  | some id => if id = "" then acc else upsertP acc id (entryHash e)
  | none => acc

/-- Embedding of `after = resp.pagination?.has_more ? (resp.pagination?.last_cursor ?? undefined) : undefined`. -/
def nextAfter (resp : Page) : Option String :=
  match resp.pagination with
  | some pg => if pg.has_more then pg.last_cursor else none
  | none => none

def listAux (client : Option String → Page) :
    Nat → Option String → List (String × Option String) →
    Option (List (String × Option String))
  | 0, _, _ => none
  | fuel + 1, after, acc =>
    let resp := client after
    let acc2 := resp.data.foldl insertEntry acc
    let na := nextAfter resp
    if truthy na then listAux client fuel na acc2 else some acc2

def listStoreFileHashesM (client : Option String → Page) (fuel : Nat) :
    Option (List (String × Option String)) :=
  listAux client fuel none []

/-- The claim's loop, word for word: one page's `last_cursor` feeds the next
request, and the loop stops exactly when a page reports `has_more` false. -/
def specListAux (client : Option String → Page) :
    Nat → Option String → List (String × Option String) →
    Option (List (String × Option String))
  | 0, _, _ => none
  | fuel + 1, after, acc =>
    let resp := client after
    let acc2 := resp.data.foldl insertEntry acc
    match resp.pagination with
    | some pg =>
      if pg.has_more then specListAux client fuel pg.last_cursor acc2 else some acc2
    | none => some acc2

def specListStoreFileHashes (client : Option String → Page) (fuel : Nat) :
    Option (List (String × Option String)) :=
  specListAux client fuel none []

/-- The entries of every visited page, concatenated, under the code's actual
continuation rule (`has_more` true and a truthy `last_cursor`). -/
def collectEntries (client : Option String → Page) :
    Nat → Option String → Option (List FileEntry)
  | 0, _ => none
  | fuel + 1, after =>
    let resp := client after
    let na := nextAfter resp
    if truthy na then (collectEntries client fuel na).map (resp.data ++ ·)
    else some resp.data

/-- Declarative form of the listing: collect all visited entries, then build
the map by the per-entry rule. -/
def specAmendedList (client : Option String → Page) (fuel : Nat) :
    Option (List (String × Option String)) :=
  (collectEntries client fuel none).map (fun es => es.foldl insertEntry [])

/-! ## initialSync and uploadFile (`src/utils.ts`, lines 126-210)

`hash` abstracts `createHash("sha256")...digest("hex")` of `node:crypto`
(a fixed function of the byte content; a SHA-256 hex digest is never the
empty string, which theorems take as a hypothesis where it matters).
`fs` abstracts `fs.promises.readFile` (`none` = the read rejects).
`uploadOk` abstracts the remote upload of one file: `true` means the upload
succeeds (streamed, or buffered after a failed stream — one successful API
call in the model), `false` means both attempts reject (two API calls).
The remote store is an association list from `external_id` to the `hash`
recorded in the uploaded metadata (`overwrite: true` replaces).
`Promise.all`/`pLimit` are linearized: each counter update is one
synchronous JS statement, so the final aggregate equals the sequential
fold's. -/

abbrev Bytes := List Nat

structure Progress where
  processed : Nat
  uploaded : Nat
  total : Nat
  filePath : String
deriving DecidableEq, Repr

structure SyncState where
  processed : Nat
  uploaded : Nat
  remote : List (String × String)
  events : List Progress
  apiUploads : Nat
deriving DecidableEq, Repr

/-- Embedding of `uploadFile` (utils.ts lines 126-161): returns `none` when the call
rejects (read failure, or both upload attempts failed), otherwise the new
remote state and the returned boolean; the `Nat` counts remote upload API
calls made. -/
def uploadFileM (hash : Bytes → String) (fs : String → Option Bytes)
    (uploadOk : String → Bool) (remote : List (String × String)) (fp : String) :
    Option (List (String × String) × Bool) × Nat :=
  match fs fp with
  | none => (none, 0)
  | some buf =>
    if buf.length = 0 then (some (remote, false), 0)
    else if uploadOk fp then (some (upsertP remote fp (hash buf), true), 1)
    else (none, 2)

/-- Embedding of `!existingHash || existingHash !== hash` of utils.ts line 191: the
recorded hash is absent, falsy (empty), or differs from the recomputed one. -/
def needUploadB (hash : Bytes → String) (storeHashes : List (String × String))
    (fp : String) (buf : Bytes) : Bool :=
  match lookupP storeHashes fp with
  | none => true
  | some e => if e = "" then true else if e = hash buf then false else true

/-- The per-file task of `initialSync` (utils.ts lines 185-206).
`storeHashes` is the listing snapshot taken before the loop; `total` the
candidate count. -/
def syncStep (hash : Bytes → String) (fs : String → Option Bytes)
    (uploadOk : String → Bool) (storeHashes : List (String × String))
    (total : Nat) (st : SyncState) (fp : String) : SyncState :=
  match fs fp with
  | none =>
    -- readFile rejected: the catch block reports progress with the
    -- unchanged counters
    { st with events := st.events ++ [⟨st.processed, st.uploaded, total, fp⟩] }
  | some buf =>
    let processed := st.processed + 1
    if needUploadB hash storeHashes fp buf then
      match uploadFileM hash fs uploadOk st.remote fp with
      | (some (r2, did), calls) =>
        let uploaded := if did then st.uploaded + 1 else st.uploaded
        { processed := processed, uploaded := uploaded, remote := r2,
          events := st.events ++ [⟨processed, uploaded, total, fp⟩],
          apiUploads := st.apiUploads + calls }
      | (none, calls) =>
        -- uploadFile rejected: caught, progress reported with processed
        -- already incremented and uploaded unchanged
        { st with processed := processed,
                  events := st.events ++ [⟨processed, st.uploaded, total, fp⟩],
                  apiUploads := st.apiUploads + calls }
    else
      { st with processed := processed,
                events := st.events ++ [⟨processed, st.uploaded, total, fp⟩] }

/-- Embedding of `initialSync` (utils.ts lines 163-210) over candidate list `files` and
initial remote store `remote0`; returns the final state (whose `processed`,
`uploaded` fields and the returned `total` form the aggregate) together
with `total`. -/
def initialSyncM (hash : Bytes → String) (fs : String → Option Bytes)
    (uploadOk : String → Bool) (remote0 : List (String × String))
    (files : List String) : SyncState × Nat :=
  (files.foldl (syncStep hash fs uploadOk remote0 files.length)
    ⟨0, 0, remote0, [], 0⟩, files.length)

/-! ## MetaStore

The `MetaStore` class is imported by `test_metastore.ts` from `./src/utils`
but its implementation is not among the sources; it is modelled from the
spec (§4.4).  Files are modelled at the JSON level: a file is absent
(`none`), unparsable (`MetaDoc.corrupt`), or a parsed `{key: hash}` object. -/

inductive MetaDoc
  | corrupt
  | obj (entries : List (String × String))
deriving DecidableEq, Repr

/-- The documents on disk, by path. -/
def ModFS : Type := String → Option MetaDoc

def metaFile : String := "meta.json"

def tmpFile : String := "meta.json.tmp"

/-- Attempting to parse a file: absent or corrupt yields `none`. -/
def parseDoc : Option MetaDoc → Option (List (String × String))
  | some (MetaDoc.obj m) => some m
  | _ => none

def fsWrite (fs : ModFS) (p : String) (d : Option MetaDoc) : ModFS :=
  fun q => if q = p then d else fs q

/-- Modelled from the spec: `MetaStore.save()` — write the full serialized
mapping to the temporary sibling file, then atomically rename it over the
primary file (the rename removes the staging file). -/
def metaSave (data : List (String × String)) (fs : ModFS) : ModFS :=
  let fs1 := fsWrite fs tmpFile (some (MetaDoc.obj data))
  let fs2 := fsWrite fs1 metaFile (some (MetaDoc.obj data))
  fsWrite fs2 tmpFile none

/-- Modelled from the spec: `MetaStore.load()` — parse the primary file; on
failure parse the staging file and, if that succeeds, take it as
authoritative and restore it into the primary location by re-running
`save()`; if both are unreadable, start from the empty mapping.  Returns
the loaded mapping and the filesystem after any restore. -/
def metaLoad (fs : ModFS) : List (String × String) × ModFS :=
  match parseDoc (fs metaFile) with
  | some m => (m, fs)
  | none =>
    match parseDoc (fs tmpFile) with
    | some m => (m, metaSave m fs)
    | none => ([], fs)

/-- Modelled from the spec: `MetaStore.get`. -/
def metaGet (data : List (String × String)) (k : String) : Option String :=
  lookupP data k

/-! ## TreeSitterChunker (`src/unnamed/part_000`)

`content.split(/\n\s*\n/)` is embedded exactly: a separator is a newline,
followed by a greedy run of whitespace, ending at the last newline inside
that run (the regex backtracks to the last position where its final `\n`
can match). -/

structure Chunk where
  content : String
  startLine : Nat
  endLine : Nat
  /-- one of `"function"`, `"class"`, `"block"`, `"other"` -/
  type : String
deriving DecidableEq, Repr

/-- Embedding of `p.split("\n").length`: one more than the number of newlines. -/
def numLines (p : List Char) : Nat := p.count '\n' + 1

/-- Embedding of `!p.trim()`: the segment is whitespace-only. -/
def isBlankSeg (p : List Char) : Bool := p.all isWS

/-- Index of the last `'\n'` inside the longest whitespace run at the head
of `l` — the backtracking target of `\s*\n` after a matched `\n`. -/
def lastNlInRun : List Char → Option Nat
  | [] => none
  | c :: cs =>
    if isWS c then
      match lastNlInRun cs with
      | some i => some (i + 1)
      | none => if c = '\n' then some 0 else none
    else none

/-- JS `content.split(/\n\s*\n/)` on character lists.  `acc` is the current
part, reversed; the fuel (first) argument makes the recursion structural —
`jsSplit` passes the content length, which every step of the scan stays
under, so the fuel-exhausted equation is never reached. -/
def jsSplitAuxF : Nat → List Char → List Char → List (List Char)
  | _, [], acc => [acc.reverse]
  | 0, l, acc => [acc.reverse ++ l]
  | fuel + 1, c :: rest, acc =>
    if c = '\n' then
      match lastNlInRun rest with
      | some i => acc.reverse :: jsSplitAuxF fuel (rest.drop (i + 1)) []
      | none => jsSplitAuxF fuel rest (c :: acc)
    else jsSplitAuxF fuel rest (c :: acc)

def jsSplit (content : List Char) : List (List Char) :=
  jsSplitAuxF content.length content []

/-- The emitting loop of `fallbackChunk` (part_000 lines 149-162) over the
split parts, carrying `lineOffset`. -/
def fallbackChunkAux : List (List Char) → Nat → List Chunk
  | [], _ => []
  | p :: ps, off =>
    if isBlankSeg p then fallbackChunkAux ps (off + numLines p)
    else
      ⟨String.mk p, off, off + numLines p, "block"⟩ ::
        fallbackChunkAux ps (off + numLines p)

/-- Embedding of `TreeSitterChunker.fallbackChunk` (part_000 lines 143-164). -/
def fallbackChunk (content : String) : List Chunk :=
  fallbackChunkAux (jsSplit content.data) 0

/-- The claim's paragraph splitter, word for word, at the line level: split
the content on blank-line boundaries; a blank segment (a maximal run of
whitespace-only lines) produces no chunk but advances the running line
counter; each non-blank paragraph becomes one `"block"` chunk whose
`startLine` is the running line offset at which it begins in the content
and whose `endLine` adds its line count. -/
def groupRuns : List (List Char) → List (Bool × List (List Char))
  | [] => []
  | l :: ls =>
    match groupRuns ls with
    | [] => [(isBlankSeg l, [l])]
    | (b, run) :: t =>
      if b = isBlankSeg l then (b, l :: run) :: t
      else (isBlankSeg l, [l]) :: (b, run) :: t

def specChunksAux : List (Bool × List (List Char)) → Nat → List Chunk
  | [], _ => []
  | (b, run) :: t, off =>
    if b then specChunksAux t (off + run.length)
    else
      ⟨String.mk (List.intercalate ['\n'] run), off, off + run.length, "block"⟩ ::
        specChunksAux t (off + run.length)

def specParagraphSplitter (content : String) : List Chunk :=
  specChunksAux (groupRuns (splitChar '\n' content.data)) 0

/-- Declarative description of the splitter the code implements: the
regex-split parts with running offsets that count only the parts' own lines
(separator lines are dropped without advancing the counter); blank parts
produce no chunk but advance the counter. -/
def amendedParagraphSplitter (content : String) : List Chunk :=
  let parts := jsSplit content.data
  let offs := (parts.map numLines).scanl (· + ·) 0
  (parts.zip offs).filterMap (fun pr =>
    if isBlankSeg pr.1 then none
    else some ⟨String.mk pr.1, pr.2, pr.2 + numLines pr.1, "block"⟩)

/-- A node of the parsed syntax tree (`tree.rootNode.children` element), by
the fields the chunker reads. -/
structure TSNode where
  type : String
  text : String
  startRow : Nat
  endRow : Nat
deriving DecidableEq, Repr

/-- The external effects of the chunker: the tree-sitter runtime
(`parserAvail` — whether `init` produced a parser; `parse` — the top-level
children the parser yields for a content), the grammar cache
(`cached` = `this.languages`, `wasmExists` = grammar file on disk), the
network (`download`, the outcome of `downloadFile` per URL) and the grammar
loader (`loadGrammar`, the outcome of `Parser.Language.load`). -/
structure ChunkerEnv where
  parserAvail : Bool
  cached : String → Bool
  wasmExists : String → Bool
  download : String → Except String Unit
  loadGrammar : String → Except String Unit
  parse : String → List TSNode

/-- Embedding of `GRAMMAR_URLS` (part_000 lines 9-13). -/
def grammarUrls (lang : String) : Option String :=
  if lang = "typescript" then
    some "https://github.com/tree-sitter/tree-sitter-typescript/releases/download/v0.20.3/tree-sitter-typescript.wasm"
  else if lang = "tsx" then
    some "https://github.com/tree-sitter/tree-sitter-typescript/releases/download/v0.20.3/tree-sitter-tsx.wasm"
  else if lang = "python" then
    some "https://github.com/tree-sitter/tree-sitter-python/releases/download/v0.20.4/tree-sitter-python.wasm"
  else none

/-- Model of `path.extname`: the suffix of the basename from its last dot, empty when
there is no dot or the only dot is the leading one. -/
def extOf (fp : String) : String :=
  let b := (splitChar '/' fp.data).getLastD []
  let pre := b.reverse.takeWhile (fun c => c ≠ '.')
  if pre.length = b.length then ""
  else if pre.length + 1 = b.length then ""
  else String.mk ('.' :: pre.reverse)

/-- Embedding of `path.extname(filePath).toLowerCase()` and the extension-to-language
table of `chunk` (part_000 lines 90-94). -/
def langOf (fp : String) : String :=
  let ext := String.mk ((extOf fp).data.map Char.toLower)
  if ext = ".ts" then "typescript"
  else if ext = ".tsx" then "tsx"
  else if ext = ".py" then "python"
  else ""

/-- Embedding of `Parser.Language.load` wrapped in the try/catch of `getLanguage`
(part_000 lines 55-63): a load failure is caught and yields `null`. -/
def loadStepE (env : ChunkerEnv) (lang : String) : Bool :=
  match env.loadGrammar lang with
  | Except.ok _ => true
  | Except.error _ => false

/-- Embedding of `TreeSitterChunker.getLanguage` (part_000 lines 42-64): `true` = a
language object, `false` = `null`.  A rejected download is NOT caught and
propagates. -/
def getLanguageE (env : ChunkerEnv) (lang : String) : Except String Bool :=
  if env.cached lang then Except.ok true
  else if env.wasmExists lang then Except.ok (loadStepE env lang)
  else
    match grammarUrls lang with
    | none => Except.ok false
    | some url =>
      match env.download url with
      | Except.error e => Except.error e
      | Except.ok _ => Except.ok (loadStepE env lang)

def isDeclType (t : String) : Bool :=
  t = "function_declaration" || t = "class_declaration" ||
  t = "method_definition" || t = "function_definition" || t = "class_definition"

/-- Embedding of `child.type.includes("class")` evaluated on the five declaration types
the branch admits. -/
def isClassType (t : String) : Bool :=
  t = "class_declaration" || t = "class_definition"

/-- The top-level traversal of `chunk` (part_000 lines 110-135). -/
def chunkNodes (nodes : List TSNode) : List Chunk :=
  nodes.filterMap (fun n =>
    if isDeclType n.type then
      some ⟨n.text, n.startRow, n.endRow,
            if isClassType n.type then "class" else "function"⟩
    else if n.text.length > 50 then some ⟨n.text, n.startRow, n.endRow, "other"⟩
    else none)

/-- Embedding of `TreeSitterChunker.chunk` (part_000 lines 86-141). -/
def chunkE (env : ChunkerEnv) (filePath content : String) :
    Except String (List Chunk) :=
  if !env.parserAvail then Except.ok (fallbackChunk content)
  else
    let lang := langOf filePath
    if lang = "" then Except.ok (fallbackChunk content)
    else
      match getLanguageE env lang with
      | Except.error e => Except.error e
      | Except.ok false => Except.ok (fallbackChunk content)
      | Except.ok true =>
        let cs := chunkNodes (env.parse content)
        if cs.isEmpty then Except.ok (fallbackChunk content) else Except.ok cs

/-- An injective-enough demonstration stand-in for the SHA-256 hex digest:
`h` followed by the printed byte list (never empty, distinct on distinct
contents). -/
def demoHash (b : Bytes) : String := String.mk ('h' :: (toString b).data)

/-! ## Lemmas about splitting -/

@[simp] theorem consHead_nil (x : List Char) : consHead x [] = [x] := rfl

@[simp] theorem consHead_cons (x h : List Char) (t : List (List Char)) :
    consHead x (h :: t) = (x ++ h) :: t := rfl

theorem splitChar_ne_nil (sep : Char) : ∀ l : List Char, splitChar sep l ≠ []
  | [] => by simp [splitChar]
  | c :: cs => by
    simp only [splitChar]
    cases splitChar sep cs with
    | nil => simp
    | cons h t => dsimp only; split <;> simp

theorem splitChar_cons_of_eq (sep : Char) (l : List Char) :
    splitChar sep (sep :: l) = [] :: splitChar sep l := by
  simp only [splitChar]
  cases hs : splitChar sep l with
  | nil => exact absurd hs (splitChar_ne_nil sep l)
  | cons h t => simp

theorem splitChar_cons_of_ne {sep c : Char} (hc : c ≠ sep) (l : List Char) :
    splitChar sep (c :: l) = consHead [c] (splitChar sep l) := by
  simp only [splitChar]
  cases hs : splitChar sep l with
  | nil => exact absurd hs (splitChar_ne_nil sep l)
  | cons h t => simp [hc]

theorem consHead_consHead (x y : List Char) (l : List (List Char)) :
    consHead x (consHead y l) = consHead (x ++ y) l := by
  cases l <;> simp

theorem splitChar_sepFree (sep : Char) :
    ∀ l : List Char, ∀ p ∈ splitChar sep l, sep ∉ p := by
  intro l
  induction l with
  | nil =>
    intro p hp
    simp only [splitChar, List.mem_singleton] at hp
    simp [hp]
  | cons c cs ih =>
    intro p hp
    by_cases hc : c = sep
    · subst hc
      rw [splitChar_cons_of_eq] at hp
      rcases List.mem_cons.mp hp with hp1 | hp1
      · simp [hp1]
      · exact ih p hp1
    · rw [splitChar_cons_of_ne hc] at hp
      cases hs : splitChar sep cs with
      | nil => exact absurd hs (splitChar_ne_nil sep cs)
      | cons h t =>
        rw [hs] at hp
        simp only [consHead_cons, List.mem_cons] at hp
        rcases hp with hp1 | hp1
        · subst hp1
          intro hmem
          rcases List.mem_append.mp hmem with hm | hm
          · simp only [List.mem_singleton] at hm
            exact hc hm.symm
          · exact ih h (by rw [hs]; exact List.mem_cons_self h t) hm
        · exact ih p (by rw [hs]; exact List.mem_cons_of_mem h hp1)

theorem splitChar_of_sepFree {sep : Char} :
    ∀ {l : List Char}, sep ∉ l → splitChar sep l = [l] := by
  intro l
  induction l with
  | nil => intro _; simp [splitChar]
  | cons c cs ih =>
    intro h
    have hc : c ≠ sep := fun he => h (he ▸ List.mem_cons_self c cs)
    have hcs : sep ∉ cs := fun hm => h (List.mem_cons_of_mem c hm)
    rw [splitChar_cons_of_ne hc, ih hcs]
    simp

theorem getLastD_irrel {α : Type} {l : List α} (h : l ≠ []) (d₁ d₂ : α) :
    l.getLastD d₁ = l.getLastD d₂ := by
  rw [List.getLastD_eq_getLast?, List.getLastD_eq_getLast?]
  cases hl : l.getLast? with
  | none => exact absurd (List.getLast?_eq_none_iff.mp hl) h
  | some x => simp

theorem splitChar_append (sep : Char) (a b : List Char) :
    splitChar sep (a ++ b) =
      (splitChar sep a).dropLast ++
        consHead ((splitChar sep a).getLastD []) (splitChar sep b) := by
  induction a with
  | nil =>
    rcases hb : splitChar sep b with _ | ⟨h, t⟩
    · exact absurd hb (splitChar_ne_nil sep b)
    · simp [splitChar, hb]
  | cons c a ih =>
    rcases hsa : splitChar sep a with _ | ⟨h, t⟩
    · exact absurd hsa (splitChar_ne_nil sep a)
    · by_cases hc : c = sep
      · subst hc
        rw [List.cons_append, splitChar_cons_of_eq, splitChar_cons_of_eq, ih, hsa]
        cases t with
        | nil =>
          rcases hb : splitChar c b with _ | ⟨hb1, tb⟩
          · exact absurd hb (splitChar_ne_nil c b)
          · simp
        | cons t1 t2 => simp [List.getLastD_cons]
      · rw [List.cons_append, splitChar_cons_of_ne hc, splitChar_cons_of_ne hc, ih, hsa]
        cases t with
        | nil =>
          rcases hb : splitChar sep b with _ | ⟨hb1, tb⟩
          · exact absurd hb (splitChar_ne_nil sep b)
          · simp
        | cons t1 t2 =>
          simp only [consHead_cons, List.dropLast_cons₂, List.getLastD_cons,
            List.singleton_append, List.cons_append]

theorem splitChar_sepFree_append {sep : Char} {x : List Char} (hx : sep ∉ x)
    (b : List Char) :
    splitChar sep (x ++ b) = consHead x (splitChar sep b) := by
  rw [splitChar_append, splitChar_of_sepFree hx]
  simp

/-! ## C7: streaming reassembly in getGitFiles -/

theorem getLastD_mem_of_ne_nil {l : List (List Char)} (h : l ≠ []) :
    l.getLastD [] ∈ l := by
  rw [List.getLastD_eq_getLast?, List.getLast?_eq_getLast_of_ne_nil h]
  simp only [Option.getD_some]
  exact List.getLast_mem h

theorem gitYieldAux_eq :
    ∀ (chunks : List (List Char)) (buf : List Char), nulChar ∉ buf →
      gitYieldAux buf chunks =
        (splitChar nulChar (buf ++ chunks.flatten)).filter (fun p => !p.isEmpty) := by
  intro chunks
  induction chunks with
  | nil =>
    intro buf hbuf
    rw [List.flatten_nil, List.append_nil, splitChar_of_sepFree hbuf]
    cases buf <;> simp [gitYieldAux]
  | cons ch rest ih =>
    intro buf hbuf
    have hne := splitChar_ne_nil nulChar (buf ++ ch)
    have hlastFree : nulChar ∉ (splitChar nulChar (buf ++ ch)).getLastD [] :=
      splitChar_sepFree nulChar (buf ++ ch) _ (getLastD_mem_of_ne_nil hne)
    simp only [gitYieldAux]
    rw [ih _ hlastFree, List.flatten_cons, ← List.append_assoc,
      splitChar_append nulChar (buf ++ ch) rest.flatten, List.filter_append,
      splitChar_sepFree_append hlastFree rest.flatten]

/-- C7 (confirmed): for every sequence of stdout chunks, `getGitFiles`
yields exactly the paths it would yield were the whole output delivered as
one chunk — the non-empty null-delimited records of the concatenation, a
trailing unterminated record included — so the yielded path set depends
only on the concatenation, not on where the chunk boundaries fall; and in
the generator's event trace the await of the child process's exit/error
event comes after every yield and before completion. -/
theorem getGitFiles_reassembly (join : List Char → List Char)
    (chunks : List (List Char)) :
    gitFilesYields join chunks = gitFilesYields join [chunks.flatten]
    ∧ gitFilesYields join chunks =
        ((splitChar nulChar chunks.flatten).filter (fun p => !p.isEmpty)).map join
    ∧ getGitFilesTrace join chunks =
        (gitFilesYields join chunks).map GitEv.yielded ++
          [GitEv.waitedExit, GitEv.completed] := by
  have h1 := gitYieldAux_eq chunks [] (by simp)
  have h2 := gitYieldAux_eq [chunks.flatten] [] (by simp)
  simp only [List.nil_append] at h1
  simp only [List.flatten_cons, List.flatten_nil, List.nil_append, List.append_nil] at h2
  refine ⟨?_, ?_, rfl⟩
  · unfold gitFilesYields
    rw [h1, h2]
  · unfold gitFilesYields
    rw [h1]

/-! ## C6 and C10: GitIgnoreFilter boundary and stat-failure behaviour -/

theorem commonPrefixLen_self : ∀ l : List String, commonPrefixLen l l = l.length
  | [] => rfl
  | a :: as => by simp [commonPrefixLen, commonPrefixLen_self as]

theorem relString_self (root : List String) : relString root root = "" := by
  unfold relString relSegments
  rw [commonPrefixLen_self]
  simp [joinSlash]

/-- A path whose relative form climbs out of the root starts with a `..`
segment. -/
theorem relSegments_outside {root fp : List String}
    (h : commonPrefixLen root fp < root.length) :
    ∃ t, relSegments root fp = ".." :: t := by
  have h2 : root.length - commonPrefixLen root fp =
      (root.length - commonPrefixLen root fp - 1) + 1 := by omega
  refine ⟨List.replicate (root.length - commonPrefixLen root fp - 1) ".." ++
    fp.drop (commonPrefixLen root fp), ?_⟩
  show List.replicate (root.length - commonPrefixLen root fp) ".." ++
    fp.drop (commonPrefixLen root fp) = _
  rw [h2, List.replicate_succ]
  rfl

theorem data_append (a b : String) : (a ++ b).data = a.data ++ b.data := rfl

theorem joinSlash_parent_shape (t : List String) :
    (joinSlash (".." :: t)).data = ['.', '.']
    ∨ ∃ r, (joinSlash (".." :: t)).data = '.' :: '.' :: '/' :: r := by
  cases t with
  | nil => left; rfl
  | cons x xs =>
    right
    refine ⟨(joinSlash (x :: xs)).data, ?_⟩
    show ((".." : String) ++ "/" ++ joinSlash (x :: xs)).data = _
    rw [data_append, data_append]
    rfl

theorem invalidIgnorePath_parent (t : List String) :
    invalidIgnorePath (joinSlash (".." :: t)) = true
    ∧ invalidIgnorePath (joinSlash (".." :: t) ++ "/") = true := by
  rcases joinSlash_parent_shape t with h | ⟨r, h⟩
  · constructor
    · unfold invalidIgnorePath
      rw [h]
      decide
    · unfold invalidIgnorePath
      rw [data_append, h]
      decide
  · constructor
    · unfold invalidIgnorePath
      rw [h]
      simp [List.dropWhile]
    · unfold invalidIgnorePath
      rw [data_append, h]
      simp [List.dropWhile]

theorem joinSlash_parent_ne_empty (t : List String) : joinSlash (".." :: t) ≠ "" := by
  intro heq
  have hd := congrArg String.data heq
  rcases joinSlash_parent_shape t with h | ⟨r, h⟩ <;> rw [h] at hd <;> simp at hd

/-- C6 (corrected): for every rule set, stat behaviour and root,
`isIgnored(root, root)` — the empty relative path — returns `false`; but a
path resolving outside the root is NOT treated as ignored: `GitIgnoreFilter`
has no such guard, it hands the `..`-prefixed relative form straight to the
`ignore` package, whose pathname check rejects it with a `RangeError`, so
the call throws instead of returning `true`.  (The outside-the-root guard
the spec describes lives in the `NodeFileSystem` wrapper, not in
`GitIgnoreFilter`.) -/
theorem gitIgnoreFilter_boundary_amended (pats : List String)
    (st : List String → StatRes) (root : List String) :
    isIgnoredM pats st root root = Except.ok false
    ∧ ∀ fp, commonPrefixLen root fp < root.length →
        isIgnoredM pats st fp root =
          Except.error "RangeError: path should be a path.relative()d string" := by
  constructor
  · unfold isIgnoredM
    rw [relString_self]
    simp
  · intro fp h
    obtain ⟨t, ht⟩ := relSegments_outside h
    have hrel : relString root fp = joinSlash (".." :: t) := by
      unfold relString
      rw [ht]
    unfold isIgnoredM
    rw [hrel, if_neg (joinSlash_parent_ne_empty t)]
    by_cases hd : st fp = StatRes.dir
    · simp only [hd, if_pos, if_true]
      unfold ignoresE
      rw [if_pos (invalidIgnorePath_parent t).2]
    · simp only [hd, if_false, if_neg]
      unfold ignoresE
      rw [if_pos (invalidIgnorePath_parent t).1]

/-- C6 witness for `gitIgnoreFilter_boundary_amended`: with no rules and an
all-directories filesystem, the root `["r"]` is not ignored, and the parent
path `[]` (relative form `..`) makes the call throw. -/
theorem gitIgnoreFilter_boundary_amended_witness :
    isIgnoredM [] (fun _ => StatRes.dir) ["r"] ["r"] = Except.ok false
    ∧ isIgnoredM [] (fun _ => StatRes.dir) [] ["r"] =
        Except.error "RangeError: path should be a path.relative()d string" :=
  ⟨(gitIgnoreFilter_boundary_amended [] (fun _ => StatRes.dir) ["r"]).1,
   (gitIgnoreFilter_boundary_amended [] (fun _ => StatRes.dir) ["r"]).2 []
     (by decide)⟩

/-- C6 counterexample: for the parent of the root (relative form `..`, a
path resolving outside the root) with an empty rule set, `isIgnored` does
not return `true` — the underlying matcher rejects the pathname, so the
call throws a `RangeError` instead. -/
theorem isIgnored_outside_root_counterexample :
    isIgnoredM [] (fun _ => StatRes.dir) [] ["r"] ≠ Except.ok true := by
  decide

theorem foldl_ruleStep_id {s : String} :
    ∀ (pats : List String) (acc : Option Bool),
      (∀ pat ∈ pats,
        patternMatches
          (if pat.data.head? = some '!' then String.mk pat.data.tail else pat) s
          = false) →
      pats.foldl (ruleStep s) acc = acc := by
  intro pats
  induction pats with
  | nil => intro acc _; rfl
  | cons pat rest ih =>
    intro acc hall
    have hpat := hall pat (List.mem_cons_self pat rest)
    have hstep : ruleStep s acc pat = acc := by
      unfold ruleStep
      simp only [hpat]
      simp
    rw [List.foldl_cons, hstep]
    exact ih acc (fun q hq => hall q (List.mem_cons_of_mem pat hq))

/-- Stripping a leading `!` preserves a trailing `/`. -/
theorem core_getLast {pat : String} (h : pat.data.getLast? = some '/') :
    (if pat.data.head? = some '!' then String.mk pat.data.tail else pat).data.getLast?
      = some '/' := by
  by_cases hneg : pat.data.head? = some '!'
  · rw [if_pos hneg]
    cases hd : pat.data with
    | nil => rw [hd] at hneg; simp at hneg
    | cons a l =>
      cases l with
      | nil =>
        rw [hd] at h hneg
        simp at h hneg
        rw [hneg] at h
        simp at h
      | cons b l2 =>
        rw [hd] at h
        rw [List.getLast?_cons_cons] at h
        simp [hd]
        exact h
  · rw [if_neg hneg]
    exact h

/-- A directory-only pattern cannot match a pathname without a trailing
slash. -/
theorem patternMatches_dirOnly_false {core p : String}
    (hcore : core.data.getLast? = some '/')
    (hp : p.data.getLast? ≠ some '/') :
    patternMatches core p = false := by
  unfold patternMatches
  simp [hcore, hp]

theorem getLast?_ne_slash_of_no_slash {l : List Char} (h : '/' ∉ l) :
    l.getLast? ≠ some '/' := by
  intro hl
  obtain ⟨hne, heq⟩ := List.mem_getLast?_eq_getLast (Option.mem_def.mpr hl)
  exact h (heq ▸ List.getLast_mem hne)

/-- A slash-free pathname has no proper ancestors: `ignores` consults only
the pathname itself. -/
theorem ancestorStrings_single {p : String} (hnd : p.data.getLast? ≠ some '/')
    (hfree : '/' ∉ p.data) :
    ancestorStrings p = [p] := by
  unfold ancestorStrings
  simp only [hnd, if_neg, if_false]
  rw [splitChar_of_sepFree hfree]
  simp

/-- C10 (corrected): when the stat probe fails, the failure is swallowed and
the path is matched as a non-directory — no trailing separator is appended,
so the relative form itself (e.g. `dist` for an unstatable `dist`) is what
the rules see, and a directory-only pattern never matches an unstatable
top-level name.  But such a pattern still matches paths BENEATH the ignored
directory (e.g. `dist/` matches the unstatable `dist/file.js`), and an
unstatable path resolving outside the root still makes the matcher throw,
so "never matches a path that cannot be stat'ed" needed narrowing. -/
theorem isIgnored_statFail_amended (pats : List String)
    (st : List String → StatRes) (fp root : List String)
    (hst : st fp = StatRes.err)
    (hne : relString root fp ≠ "") :
    isIgnoredM pats st fp root = ignoresE pats (relString root fp)
    ∧ ((∀ pat ∈ pats, pat.data.getLast? = some '/') →
        invalidIgnorePath (relString root fp) = false →
        '/' ∉ (relString root fp).data →
        isIgnoredM pats st fp root = Except.ok false) := by
  have h1 : isIgnoredM pats st fp root = ignoresE pats (relString root fp) := by
    unfold isIgnoredM
    rw [if_neg hne]
    have hdir : ¬ (st fp = StatRes.dir) := by rw [hst]; decide
    simp [hdir]
  refine ⟨h1, ?_⟩
  intro hall hval hfree
  rw [h1]
  have hnd : (relString root fp).data.getLast? ≠ some '/' :=
    getLast?_ne_slash_of_no_slash hfree
  have hnone : matchLevel pats (relString root fp) = none := by
    unfold matchLevel
    exact foldl_ruleStep_id pats none (fun pat hpat =>
      patternMatches_dirOnly_false (core_getLast (hall pat hpat)) hnd)
  unfold ignoresE
  rw [if_neg (by simp [hval])]
  unfold ignoresCore
  rw [ancestorStrings_single hnd hfree]
  simp [hnone]

/-- C10 witness for `isIgnored_statFail_amended`: with the single rule
`dist/` and a filesystem where nothing can be stat'ed, the unstatable
top-level name `dist` is not ignored. -/
theorem isIgnored_statFail_amended_witness :
    isIgnoredM ["dist/"] (fun _ => StatRes.err) ["r", "dist"] ["r"] = Except.ok false :=
  (isIgnored_statFail_amended ["dist/"] (fun _ => StatRes.err) ["r", "dist"] ["r"]
    rfl (by decide)).2 (by decide) (by decide) (by decide)

/-- C10 counterexample: the directory-only pattern `dist/` DOES match the
unstatable path `dist/file.js` (every stat fails here): the rules also test
the ancestor directory `dist/`, so `isIgnored` returns `true` even though
the path could not be stat'ed. -/
theorem isIgnored_statFail_counterexample :
    isIgnoredM ["dist/"] (fun _ => StatRes.err) ["r", "dist", "file.js"] ["r"]
      = Except.ok true := by
  decide

/-! ## C8: pagination of the remote listing -/

theorem listAux_eq_collect (client : Option String → Page) :
    ∀ (fuel : Nat) (after : Option String) (acc : List (String × Option String)),
      listAux client fuel after acc =
        (collectEntries client fuel after).map (fun es => es.foldl insertEntry acc) := by
  intro fuel
  induction fuel with
  | zero => intro after acc; rfl
  | succ n ih =>
    intro after acc
    simp only [listAux, collectEntries]
    cases htr : truthy (nextAfter (client after)) with
    | false => simp [htr]
    | true =>
      simp only [htr, if_true]
      rw [ih]
      cases hcoll : collectEntries client n (nextAfter (client after)) with
      | none => simp
      | some es => simp [List.foldl_append]

/-- C8 (corrected): `listStoreFileHashes` pages through the listing feeding
each page's `last_cursor` into the next request, but it stops not only when
a page reports `has_more = false`: it also stops when pagination data is
absent or when `has_more` is true but the page supplies no usable (non-null,
non-empty) `last_cursor`.  The returned map is built from the entries of
all visited pages by the per-entry rule: entries without an external
identifier (or with an empty one) are omitted; every other entry maps its
identifier to the metadata hash when that is a string and to `undefined`
(`none`) otherwise, later entries overwriting earlier ones. -/
theorem listStoreFileHashes_amended (client : Option String → Page) (fuel : Nat) :
    listStoreFileHashesM client fuel = specAmendedList client fuel :=
  listAux_eq_collect client fuel none []

/-- C8 counterexample: against a client whose every response reports
`has_more = true` with a `null` cursor, the code stops after the first page
(returning the one-page map), while the claim's loop — continue exactly
while `has_more` is true — never stops (it exhausts any fuel).  So
"stops exactly when a page reports no further pages (`has_more` false)" is
false on the code. -/
theorem listStoreFileHashes_counterexample :
    listStoreFileHashesM (fun _ => ⟨[], some ⟨true, none⟩⟩) 5 = some []
    ∧ specListStoreFileHashes (fun _ => ⟨[], some ⟨true, none⟩⟩) 5 = none := by
  exact ⟨rfl, rfl⟩

/-! ## C5: chunker error containment -/

/-- C5 (corrected): an unsupported language (unknown extension), a missing
parser, and a grammar-load failure all degrade to the paragraph fallback
without raising; but a failed grammar download is NOT contained: the
rejection of `downloadFile` propagates out of `chunk` (there is no
try/catch around `await this.downloadFile(...)` or around
`await this.getLanguage(...)`). -/
theorem chunk_error_containment_amended (env : ChunkerEnv) (fp content : String) :
    (env.parserAvail = false → chunkE env fp content = Except.ok (fallbackChunk content))
    ∧ (langOf fp = "" → chunkE env fp content = Except.ok (fallbackChunk content))
    ∧ (∀ e, env.cached (langOf fp) = false →
        env.wasmExists (langOf fp) = true →
        env.loadGrammar (langOf fp) = Except.error e →
        chunkE env fp content = Except.ok (fallbackChunk content))
    ∧ (∀ u e, langOf fp ≠ "" → env.parserAvail = true →
        env.cached (langOf fp) = false →
        env.wasmExists (langOf fp) = false →
        grammarUrls (langOf fp) = some u →
        env.download u = Except.error e →
        chunkE env fp content = Except.error e) := by
  refine ⟨?_, ?_, ?_, ?_⟩
  · intro h
    simp [chunkE, h]
  · intro h
    cases hpa : env.parserAvail with
    | false => simp [chunkE, hpa]
    | true => simp [chunkE, hpa, h]
  · intro e hcached hwasm hload
    cases hpa : env.parserAvail with
    | false => simp [chunkE, hpa]
    | true =>
      by_cases hlang : langOf fp = ""
      · simp [chunkE, hpa, hlang]
      · simp [chunkE, hpa, hlang, getLanguageE, hcached, hwasm, loadStepE, hload]
  · intro u e hlang hpa hcached hwasm hurl hdl
    simp [chunkE, hpa, hlang, getLanguageE, hcached, hwasm, hurl, hdl]

/-- C5 witness for `chunk_error_containment_amended`: a concrete chunker
whose grammar file exists but fails to load degrades to the fallback. -/
theorem chunk_error_containment_amended_witness :
    chunkE ⟨true, fun _ => false, fun _ => true, fun _ => Except.ok (),
            fun _ => Except.error "bad wasm", fun _ => []⟩ "a.ts" "x\n\ny" =
      Except.ok (fallbackChunk "x\n\ny") :=
  (chunk_error_containment_amended
    ⟨true, fun _ => false, fun _ => true, fun _ => Except.ok (),
     fun _ => Except.error "bad wasm", fun _ => []⟩ "a.ts" "x\n\ny").2.2.1
    "bad wasm" rfl rfl rfl

/-- C5 counterexample: a network failure while downloading the grammar for a
supported language propagates out of `chunk` instead of degrading to the
fallback — `chunk` rejects with the download error. -/
theorem chunk_download_error_counterexample :
    chunkE ⟨true, fun _ => false, fun _ => false, fun _ => Except.error "network error",
            fun _ => Except.ok (), fun _ => []⟩ "a.ts" "hello" =
      Except.error "network error" := by
  rfl

/-! ## C9: the paragraph fallback -/

theorem fallbackChunkAux_eq :
    ∀ (parts : List (List Char)) (off : Nat),
      fallbackChunkAux parts off =
        (parts.zip ((parts.map numLines).scanl (· + ·) off)).filterMap
          (fun pr =>
            if isBlankSeg pr.1 then none
            else some ⟨String.mk pr.1, pr.2, pr.2 + numLines pr.1, "block"⟩) := by
  intro parts
  induction parts with
  | nil => intro off; rfl
  | cons p ps ih =>
    intro off
    simp only [fallbackChunkAux, List.map_cons, List.scanl_cons, List.singleton_append,
      List.zip_cons_cons, List.filterMap_cons]
    by_cases hb : isBlankSeg p = true
    · rw [if_pos hb, if_pos hb]
      exact ih (off + numLines p)
    · rw [if_neg hb, if_neg hb, ih (off + numLines p)]

/-- C9 (corrected): whenever no parser or no grammar is available, the
language is unsupported, or the syntax-tree pass yields zero chunks, the
result of `chunk` is exactly `fallbackChunk content`; and `fallbackChunk`
splits the content on newline–whitespace–newline separator runs, drops the
separator lines WITHOUT advancing the running line counter, lets blank
split segments produce no chunk while advancing the counter, and emits one
`"block"` chunk per non-blank segment with `startLine` the running offset
(counting only earlier segments' lines, not separator lines) and `endLine`
adding the segment's line count. -/
theorem chunk_fallback_amended (env : ChunkerEnv) (fp content : String) :
    (env.parserAvail = false →
      chunkE env fp content = Except.ok (fallbackChunk content))
    ∧ (langOf fp = "" → chunkE env fp content = Except.ok (fallbackChunk content))
    ∧ (getLanguageE env (langOf fp) = Except.ok false →
        chunkE env fp content = Except.ok (fallbackChunk content))
    ∧ (getLanguageE env (langOf fp) = Except.ok true →
        chunkNodes (env.parse content) = [] →
        chunkE env fp content = Except.ok (fallbackChunk content))
    ∧ (∀ c : String, fallbackChunk c = amendedParagraphSplitter c) := by
  refine ⟨?_, ?_, ?_, ?_, ?_⟩
  · intro h
    simp [chunkE, h]
  · intro h
    cases hpa : env.parserAvail with
    | false => simp [chunkE, hpa]
    | true => simp [chunkE, hpa, h]
  · intro h
    cases hpa : env.parserAvail with
    | false => simp [chunkE, hpa]
    | true =>
      by_cases hlang : langOf fp = ""
      · simp [chunkE, hpa, hlang]
      · simp [chunkE, hpa, hlang, h]
  · intro h hz
    cases hpa : env.parserAvail with
    | false => simp [chunkE, hpa]
    | true =>
      by_cases hlang : langOf fp = ""
      · simp [chunkE, hpa, hlang]
      · simp [chunkE, hpa, hlang, h, hz]
  · intro c
    unfold fallbackChunk amendedParagraphSplitter
    exact fallbackChunkAux_eq (jsSplit c.data) 0

/-- C9 witness for `chunk_fallback_amended`: a parserless chunker falls back,
and on `"a\n\nb"` the fallback equals the amended splitter. -/
theorem chunk_fallback_amended_witness :
    chunkE ⟨false, fun _ => false, fun _ => false, fun _ => Except.ok (),
            fun _ => Except.ok (), fun _ => []⟩ "x.py" "a\n\nb" =
      Except.ok (fallbackChunk "a\n\nb")
    ∧ fallbackChunk "a\n\nb" = amendedParagraphSplitter "a\n\nb" :=
  ⟨(chunk_fallback_amended
      ⟨false, fun _ => false, fun _ => false, fun _ => Except.ok (),
       fun _ => Except.ok (), fun _ => []⟩ "x.py" "a\n\nb").1 rfl,
   (chunk_fallback_amended
      ⟨false, fun _ => false, fun _ => false, fun _ => Except.ok (),
       fun _ => Except.ok (), fun _ => []⟩ "x.py" "a\n\nb").2.2.2.2 "a\n\nb"⟩

/-- C9 counterexample: on `"a\n\nb"` the code's fallback gives the second
paragraph `startLine = 1` (the separator's blank line is dropped without
advancing the counter), while the claim's paragraph splitter — blank
segments advance the running line counter so `startLine` is the offset at
which the paragraph begins in the content — gives `startLine = 2`. -/
theorem fallbackChunk_lineNumbers_counterexample :
    fallbackChunk "a\n\nb" ≠ specParagraphSplitter "a\n\nb" := by
  decide

/-! ## C4: MetaStore crash recovery (modelled from the spec) -/

/-- C4 (confirmed; the MetaStore implementation is modelled from spec §4.4):
if the primary metadata document is corrupt and the staging sibling parses,
`load()` takes the staging mapping as authoritative —
`get "recovered-file"` yields `"recovered-hash"` — and re-saves a primary
document with that mapping; and for every filesystem in which both
documents are unreadable, `load()` yields the empty mapping (and, being a
total function, never throws). -/
theorem metaStore_crash_recovery (fs : ModFS)
    (h1 : fs metaFile = some MetaDoc.corrupt)
    (h2 : fs tmpFile = some (MetaDoc.obj [("recovered-file", "recovered-hash")])) :
    metaGet (metaLoad fs).1 "recovered-file" = some "recovered-hash"
    ∧ (metaLoad fs).2 metaFile =
        some (MetaDoc.obj [("recovered-file", "recovered-hash")])
    ∧ ∀ g : ModFS, parseDoc (g metaFile) = none → parseDoc (g tmpFile) = none →
        (metaLoad g).1 = [] := by
  refine ⟨?_, ?_, ?_⟩
  · simp [metaLoad, h1, h2, parseDoc, metaGet, lookupP]
  · have hne : metaFile ≠ tmpFile := by decide
    simp [metaLoad, h1, h2, parseDoc, metaSave, fsWrite, hne]
  · intro g hg1 hg2
    simp [metaLoad, hg1, hg2]

/-- C4 witness for `metaStore_crash_recovery` at a concrete filesystem with
a corrupt primary document and the staging document of the claim. -/
theorem metaStore_crash_recovery_witness :
    metaGet (metaLoad (fun q =>
      if q = tmpFile then some (MetaDoc.obj [("recovered-file", "recovered-hash")])
      else if q = metaFile then some MetaDoc.corrupt else none)).1 "recovered-file" =
      some "recovered-hash" :=
  (metaStore_crash_recovery
    (fun q =>
      if q = tmpFile then some (MetaDoc.obj [("recovered-file", "recovered-hash")])
      else if q = metaFile then some MetaDoc.corrupt else none)
    (by simp [metaFile, tmpFile]) (by simp [tmpFile])).1


/-! ## C1, C2, C3: the diff-and-upload engine -/

theorem lookupP_upsertP_self {α : Type} (r : List (String × α)) (k : String) (v : α) :
    lookupP (upsertP r k v) k = some v := by
  induction r with
  | nil => simp [upsertP, lookupP]
  | cons p rest ih =>
    by_cases h : p.1 = k
    · simp [upsertP, lookupP, h]
    · simp [upsertP, lookupP, h, ih]

theorem lookupP_upsertP_ne {α : Type} {k2 k : String} (r : List (String × α)) (v : α)
    (h : k2 ≠ k) :
    lookupP (upsertP r k v) k2 = lookupP r k2 := by
  induction r with
  | nil => simp [upsertP, lookupP, Ne.symm h]
  | cons p rest ih =>
    by_cases hk : p.1 = k
    · simp [upsertP, lookupP, hk, Ne.symm h]
    · simp [upsertP, lookupP, hk, ih]

/-- Restatement of `syncStep` as an explicit decision tree (the bridge between the
source-shaped definition and the proofs). -/
theorem syncStep_eq (hash : Bytes → String) (fs : String → Option Bytes)
    (uploadOk : String → Bool) (storeHashes : List (String × String))
    (total : Nat) (st : SyncState) (fp : String) :
    syncStep hash fs uploadOk storeHashes total st fp =
      match fs fp with
      | none =>
        { st with events := st.events ++ [⟨st.processed, st.uploaded, total, fp⟩] }
      | some buf =>
        if needUploadB hash storeHashes fp buf then
          if buf.length = 0 then
            { st with processed := st.processed + 1,
                      events := st.events ++
                        [⟨st.processed + 1, st.uploaded, total, fp⟩] }
          else if uploadOk fp then
            { processed := st.processed + 1, uploaded := st.uploaded + 1,
              remote := upsertP st.remote fp (hash buf),
              events := st.events ++
                [⟨st.processed + 1, st.uploaded + 1, total, fp⟩],
              apiUploads := st.apiUploads + 1 }
          else
            { st with processed := st.processed + 1,
                      events := st.events ++
                        [⟨st.processed + 1, st.uploaded, total, fp⟩],
                      apiUploads := st.apiUploads + 2 }
        else
          { st with processed := st.processed + 1,
                    events := st.events ++
                      [⟨st.processed + 1, st.uploaded, total, fp⟩] } := by
  rcases hfs : fs fp with _ | buf
  · simp [syncStep, hfs]
  · simp only [syncStep, uploadFileM, hfs]
    by_cases hn : needUploadB hash storeHashes fp buf = true
    · by_cases hb : buf.length = 0
      · simp [hn, hb]
      · by_cases hok : uploadOk fp = true
        · simp [hn, hb, hok]
        · simp [hn, hb, hok]
    · simp [hn]

theorem needUploadB_false {hash : Bytes → String} {storeHashes : List (String × String)}
    {fp : String} {buf : Bytes} (h : needUploadB hash storeHashes fp buf = false) :
    lookupP storeHashes fp = some (hash buf) := by
  unfold needUploadB at h
  rcases hl : lookupP storeHashes fp with _ | e
  · rw [hl] at h; simp at h
  · rw [hl] at h
    by_cases he : e = ""
    · simp [he] at h
    · by_cases heq : e = hash buf
      · rw [heq]
      · simp [he, heq] at h

theorem needUploadB_of_lookup {hash : Bytes → String}
    {storeHashes : List (String × String)} {fp : String} {buf : Bytes} {e : String}
    (hl : lookupP storeHashes fp = some e) (hne : e ≠ "") (heq : e = hash buf) :
    needUploadB hash storeHashes fp buf = false := by
  unfold needUploadB
  rw [hl]
  subst heq
  simp [hne]

theorem syncStep_lookup_ne (hash : Bytes → String) (fs : String → Option Bytes)
    (uploadOk : String → Bool) (storeHashes : List (String × String))
    (total : Nat) (st : SyncState) {fp f : String} (h : f ≠ fp) :
    lookupP (syncStep hash fs uploadOk storeHashes total st fp).remote f =
      lookupP st.remote f := by
  rw [syncStep_eq]
  rcases hfs : fs fp with _ | buf
  · rfl
  · by_cases hn : needUploadB hash storeHashes fp buf = true
    · by_cases hb : buf.length = 0
      · simp [hn, hb]
      · by_cases hok : uploadOk fp = true
        · simp [hn, hb, hok, lookupP_upsertP_ne _ _ h]
        · simp [hn, hb, hok]
    · simp [hn]

theorem run_remote_frame (hash : Bytes → String) (fs : String → Option Bytes)
    (uploadOk : String → Bool) (storeHashes : List (String × String)) (total : Nat) :
    ∀ (files : List String) (st : SyncState) (f : String), f ∉ files →
      lookupP ((files.foldl (syncStep hash fs uploadOk storeHashes total) st)).remote f
        = lookupP st.remote f := by
  intro files
  induction files with
  | nil => intro st f _; rfl
  | cons f0 rest ih =>
    intro st f hf
    rw [List.foldl_cons]
    rw [ih _ f (fun hm => hf (List.mem_cons_of_mem f0 hm))]
    exact syncStep_lookup_ne hash fs uploadOk storeHashes total st
      (fun he => hf (he ▸ List.mem_cons_self f0 rest))

/-- After processing a readable non-empty file whose upload (if needed)
succeeds, the run's remote state records the hash of its content —
provided that before the step the recorded value was either the pre-run
snapshot's or already the correct hash. -/
theorem syncStep_lookup_self (hash : Bytes → String) (fs : String → Option Bytes)
    (uploadOk : String → Bool) (storeHashes : List (String × String))
    (total : Nat) (st : SyncState) {fp : String} {b : Bytes}
    (hfs : fs fp = some b) (hbne : b ≠ [])
    (hok : uploadOk fp = true)
    (hpre : lookupP st.remote fp = lookupP storeHashes fp ∨
            lookupP st.remote fp = some (hash b)) :
    lookupP (syncStep hash fs uploadOk storeHashes total st fp).remote fp =
      some (hash b) := by
  rw [syncStep_eq]
  cases hn : needUploadB hash storeHashes fp b with
  | false =>
    -- no upload needed: the snapshot already holds the hash
    have hsnap := needUploadB_false hn
    simp only [hfs, hn, Bool.false_eq_true, if_false]
    rcases hpre with hpre | hpre
    · rw [hpre, hsnap]
    · exact hpre
  | true =>
    have hb : ¬ b.length = 0 := fun h0 => hbne (List.length_eq_zero.mp h0)
    simp [hfs, hn, hb, hok, lookupP_upsertP_self]

theorem run1_remote (hash : Bytes → String) (fs : String → Option Bytes)
    (uploadOk : String → Bool) (storeHashes : List (String × String)) (total : Nat) :
    ∀ (files : List String) (st : SyncState),
      (∀ f ∈ files, uploadOk f = true) →
      (∀ f ∈ files, ∀ b, fs f = some b → b ≠ [] →
        lookupP st.remote f = lookupP storeHashes f ∨
        lookupP st.remote f = some (hash b)) →
      ∀ f ∈ files, ∀ b, fs f = some b → b ≠ [] →
        lookupP ((files.foldl (syncStep hash fs uploadOk storeHashes total) st)).remote f
          = some (hash b) := by
  intro files
  induction files with
  | nil => intro st _ _ f hf; exact absurd hf (List.not_mem_nil f)
  | cons f0 rest ih =>
    intro st hup hinv f hf b hfs hbne
    rw [List.foldl_cons]
    have hup0 : uploadOk f0 = true := hup f0 (List.mem_cons_self f0 rest)
    have hinv1 : ∀ g ∈ rest, ∀ bg, fs g = some bg → bg ≠ [] →
        lookupP (syncStep hash fs uploadOk storeHashes total st f0).remote g =
          lookupP storeHashes g ∨
        lookupP (syncStep hash fs uploadOk storeHashes total st f0).remote g =
          some (hash bg) := by
      intro g hg bg hbg hbgne
      by_cases hgf : g = f0
      · subst hgf
        right
        exact syncStep_lookup_self hash fs uploadOk storeHashes total st hbg hbgne hup0
          (hinv g (List.mem_cons_self g rest) bg hbg hbgne)
      · rw [syncStep_lookup_ne hash fs uploadOk storeHashes total st hgf]
        exact hinv g (List.mem_cons_of_mem f0 hg) bg hbg hbgne
    have hup1 : ∀ g ∈ rest, uploadOk g = true :=
      fun g hg => hup g (List.mem_cons_of_mem f0 hg)
    rcases List.mem_cons.mp hf with hf0 | hfr
    · subst hf0
      by_cases hfr : f ∈ rest
      · exact ih _ hup1 hinv1 f hfr b hfs hbne
      · rw [run_remote_frame hash fs uploadOk storeHashes total rest _ f hfr]
        exact syncStep_lookup_self hash fs uploadOk storeHashes total st hfs hbne hup0
          (hinv f (List.mem_cons_self f rest) b hfs hbne)
    · exact ih _ hup1 hinv1 f hfr b hfs hbne

/-- A run whose pre-run snapshot already records the on-disk hash of every
readable non-empty candidate performs no uploads: no remote API call, no
`uploaded` increment, no remote change. -/
theorem run2_noop (hash : Bytes → String) (fs : String → Option Bytes)
    (uploadOk : String → Bool) (storeHashes : List (String × String)) (total : Nat)
    (hns : ∀ b, hash b ≠ "") :
    ∀ (files : List String) (st : SyncState),
      (∀ f ∈ files, ∀ b, fs f = some b → b ≠ [] →
        lookupP storeHashes f = some (hash b)) →
      (files.foldl (syncStep hash fs uploadOk storeHashes total) st).uploaded
          = st.uploaded
      ∧ (files.foldl (syncStep hash fs uploadOk storeHashes total) st).apiUploads
          = st.apiUploads
      ∧ (files.foldl (syncStep hash fs uploadOk storeHashes total) st).remote
          = st.remote := by
  intro files
  induction files with
  | nil => intro st _; exact ⟨rfl, rfl, rfl⟩
  | cons f0 rest ih =>
    intro st hsnap
    rw [List.foldl_cons]
    have hstep : (syncStep hash fs uploadOk storeHashes total st f0).uploaded
          = st.uploaded
        ∧ (syncStep hash fs uploadOk storeHashes total st f0).apiUploads
          = st.apiUploads
        ∧ (syncStep hash fs uploadOk storeHashes total st f0).remote = st.remote := by
      rw [syncStep_eq]
      rcases hfs : fs f0 with _ | b
      · exact ⟨rfl, rfl, rfl⟩
      · by_cases hbe : b = []
        · subst hbe
          by_cases hn : needUploadB hash storeHashes f0 [] = true
          · simp [hn]
          · simp [hn]
        · have hl := hsnap f0 (List.mem_cons_self f0 rest) b hfs hbe
          have hn : needUploadB hash storeHashes f0 b = false :=
            needUploadB_of_lookup hl (hns b) rfl
          simp [hn]
    obtain ⟨h1, h2, h3⟩ :=
      ih (syncStep hash fs uploadOk storeHashes total st f0)
        (fun g hg => hsnap g (List.mem_cons_of_mem f0 hg))
    exact ⟨h1.trans hstep.1, h2.trans hstep.2.1, h3.trans hstep.2.2⟩

/-- C1 (confirmed): if the first run's per-file uploads all succeed (and the
hash function never yields the falsy empty digest — true of a SHA-256 hex
digest), then a second run over unchanged file contents performs zero
remote upload calls, leaves the remote store untouched, and returns
`uploaded = 0`, whichever files are unreadable or empty and whatever the
second run's network would do. -/
theorem initialSync_idempotent (hash : Bytes → String) (fs : String → Option Bytes)
    (uploadOk1 uploadOk2 : String → Bool) (remote0 : List (String × String))
    (files : List String)
    (hns : ∀ b, hash b ≠ "")
    (hup : ∀ f ∈ files, uploadOk1 f = true) :
    (initialSyncM hash fs uploadOk2
        (initialSyncM hash fs uploadOk1 remote0 files).1.remote files).1.uploaded = 0
    ∧ (initialSyncM hash fs uploadOk2
        (initialSyncM hash fs uploadOk1 remote0 files).1.remote files).1.apiUploads = 0
    ∧ (initialSyncM hash fs uploadOk2
          (initialSyncM hash fs uploadOk1 remote0 files).1.remote files).1.remote
        = (initialSyncM hash fs uploadOk1 remote0 files).1.remote := by
  have hsnap : ∀ f ∈ files, ∀ b, fs f = some b → b ≠ [] →
      lookupP (initialSyncM hash fs uploadOk1 remote0 files).1.remote f
        = some (hash b) := by
    intro f hf b hfs hbne
    exact run1_remote hash fs uploadOk1 remote0 files.length files
      ⟨0, 0, remote0, [], 0⟩ hup (fun _ _ _ _ _ => Or.inl rfl) f hf b hfs hbne
  exact run2_noop hash fs uploadOk2
    (initialSyncM hash fs uploadOk1 remote0 files).1.remote files.length hns files
    ⟨0, 0, (initialSyncM hash fs uploadOk1 remote0 files).1.remote, [], 0⟩ hsnap

/-- C1 witness for `initialSync_idempotent` at a concrete one-file
repository with a constant (never-empty) hash. -/
theorem initialSync_idempotent_witness :
    (initialSyncM (fun _ => "X") (fun _ => some [1]) (fun _ => true)
        (initialSyncM (fun _ => "X") (fun _ => some [1]) (fun _ => true) [] ["a"]).1.remote
        ["a"]).1.uploaded = 0 :=
  (initialSync_idempotent (fun _ => "X") (fun _ => some [1]) (fun _ => true)
    (fun _ => true) [] ["a"]
    (fun b => by show ("X" : String) ≠ ""; decide) (fun _ _ => rfl)).1


theorem needUploadB_of_lookup_ne {hash : Bytes → String}
    {storeHashes : List (String × String)} {fp : String} {buf : Bytes} {e : String}
    (hl : lookupP storeHashes fp = some e) (hne : e ≠ "") (hneq : e ≠ hash buf) :
    needUploadB hash storeHashes fp buf = true := by
  unfold needUploadB
  rw [hl]
  simp [hne, hneq]

theorem run2_count (hash : Bytes → String) (fs1 fs2 : String → Option Bytes)
    (uploadOk : String → Bool) (storeHashes : List (String × String)) (total : Nat)
    (hns : ∀ b, hash b ≠ "") :
    ∀ (files : List String) (st : SyncState),
      (∀ f ∈ files, uploadOk f = true) →
      (∀ f ∈ files, ∃ b1, fs1 f = some b1 ∧ b1 ≠ [] ∧
        lookupP storeHashes f = some (hash b1)) →
      (∀ f ∈ files, (fs2 f).isSome = true) →
      (∀ f ∈ files, ∀ b1 b2, fs1 f = some b1 → fs2 f = some b2 →
        hash b1 = hash b2 → b1 = b2) →
      (files.foldl (syncStep hash fs2 uploadOk storeHashes total) st).uploaded =
        st.uploaded +
          (files.filter
            (fun f => decide (fs1 f ≠ fs2 f) && decide (fs2 f ≠ some []))).length := by
  intro files
  induction files with
  | nil => intro st _ _ _ _; simp
  | cons f0 rest ih =>
    intro st hup hsnap hr2 hinj
    obtain ⟨b1, hb1, hb1ne, hl⟩ := hsnap f0 (List.mem_cons_self f0 rest)
    obtain ⟨b2, hb2⟩ :=
      Option.isSome_iff_exists.mp (hr2 f0 (List.mem_cons_self f0 rest))
    rw [List.foldl_cons, List.filter_cons]
    have hupr : ∀ g ∈ rest, uploadOk g = true :=
      fun g hg => hup g (List.mem_cons_of_mem f0 hg)
    have hsnapr := fun g hg => hsnap g (List.mem_cons_of_mem f0 hg)
    have hr2r := fun g hg => hr2 g (List.mem_cons_of_mem f0 hg)
    have hinjr := fun g hg => hinj g (List.mem_cons_of_mem f0 hg)
    have ihr := ih (syncStep hash fs2 uploadOk storeHashes total st f0)
      hupr hsnapr hr2r hinjr
    by_cases hch : b1 = b2
    · have hn : needUploadB hash storeHashes f0 b2 = false :=
        needUploadB_of_lookup hl (hns b1) (congrArg hash hch)
      have hstep : (syncStep hash fs2 uploadOk storeHashes total st f0).uploaded =
          st.uploaded := by
        rw [syncStep_eq]
        simp [hb2, hn]
      have hpred : (decide (fs1 f0 ≠ fs2 f0) && decide (fs2 f0 ≠ some [])) = false := by
        rw [hb1, hb2, hch]
        simp
      rw [ihr, hstep, hpred]
      simp
    · have hhne : hash b1 ≠ hash b2 :=
        fun heq => hch (hinj f0 (List.mem_cons_self f0 rest) b1 b2 hb1 hb2 heq)
      have hn : needUploadB hash storeHashes f0 b2 = true :=
        needUploadB_of_lookup_ne hl (hns b1) hhne
      have hchfs : fs1 f0 ≠ fs2 f0 := by
        rw [hb1, hb2]
        exact fun he => hch (Option.some.inj he)
      by_cases hb2e : b2 = []
      · subst hb2e
        have hstep : (syncStep hash fs2 uploadOk storeHashes total st f0).uploaded =
            st.uploaded := by
          rw [syncStep_eq]
          simp [hb2, hn]
        have hpred : (decide (fs1 f0 ≠ fs2 f0) && decide (fs2 f0 ≠ some [])) = false := by
          rw [hb2]
          simp
        rw [ihr, hstep, hpred]
        simp
      · have hblen : ¬ b2.length = 0 := fun h0 => hb2e (List.length_eq_zero.mp h0)
        have hstep : (syncStep hash fs2 uploadOk storeHashes total st f0).uploaded =
            st.uploaded + 1 := by
          rw [syncStep_eq]
          simp [hb2, hn, hblen, hup f0 (List.mem_cons_self f0 rest)]
        have hpred : (decide (fs1 f0 ≠ fs2 f0) && decide (fs2 f0 ≠ some [])) = true := by
          rw [hb1, hb2]
          simp only [Bool.and_eq_true, decide_eq_true_eq]
          exact ⟨fun he => hch (Option.some.inj he), fun he => hb2e (Option.some.inj he)⟩
        rw [ihr, hstep, hpred]
        simp only [if_true, List.length_cons]
        omega

/-- C2 (corrected): with a collision-free hash over the contents involved,
the second run uploads exactly the candidate files whose content changed
AND whose new content is non-empty: `uploadFile` returns before uploading
when the buffer is empty, so files emptied by a change are not uploaded and
not counted (hypotheses: both runs read every candidate, the first run's
candidates are non-empty and its uploads succeed, the second run's uploads
succeed, and the hash digest is never the falsy empty string). -/
theorem initialSync_convergence_amended (hash : Bytes → String)
    (fs1 fs2 : String → Option Bytes) (uploadOk1 uploadOk2 : String → Bool)
    (remote0 : List (String × String)) (files : List String)
    (hns : ∀ b, hash b ≠ "")
    (hup1 : ∀ f ∈ files, uploadOk1 f = true)
    (hup2 : ∀ f ∈ files, uploadOk2 f = true)
    (hr1 : ∀ f ∈ files, ∃ b, fs1 f = some b ∧ b ≠ [])
    (hr2 : ∀ f ∈ files, (fs2 f).isSome = true)
    (hinj : ∀ f ∈ files, ∀ b1 b2, fs1 f = some b1 → fs2 f = some b2 →
      hash b1 = hash b2 → b1 = b2) :
    (initialSyncM hash fs2 uploadOk2
        (initialSyncM hash fs1 uploadOk1 remote0 files).1.remote files).1.uploaded =
      (files.filter
        (fun f => decide (fs1 f ≠ fs2 f) && decide (fs2 f ≠ some []))).length := by
  have hsnap : ∀ f ∈ files, ∃ b1, fs1 f = some b1 ∧ b1 ≠ [] ∧
      lookupP (initialSyncM hash fs1 uploadOk1 remote0 files).1.remote f =
        some (hash b1) := by
    intro f hf
    obtain ⟨b, hb, hbne⟩ := hr1 f hf
    exact ⟨b, hb, hbne,
      run1_remote hash fs1 uploadOk1 remote0 files.length files
        ⟨0, 0, remote0, [], 0⟩ hup1 (fun _ _ _ _ _ => Or.inl rfl) f hf b hb hbne⟩
  have h := run2_count hash fs1 fs2 uploadOk2
    (initialSyncM hash fs1 uploadOk1 remote0 files).1.remote files.length hns files
    ⟨0, 0, (initialSyncM hash fs1 uploadOk1 remote0 files).1.remote, [], 0⟩
    hup2 hsnap hr2 hinj
  simpa using h

theorem demoHash_ne_empty (b : Bytes) : demoHash b ≠ "" := by
  intro h
  have h2 := congrArg String.data h
  simp [demoHash] at h2

/-- C2 witness for `initialSync_convergence_amended`: one file whose content
changes from `[1]` to `[2]` between runs gives `uploaded = 1` on the second
run. -/
theorem initialSync_convergence_amended_witness :
    (initialSyncM demoHash (fun _ => some [2]) (fun _ => true)
        (initialSyncM demoHash (fun _ => some [1]) (fun _ => true) [] ["a"]).1.remote
        ["a"]).1.uploaded = 1 := by
  have h := initialSync_convergence_amended demoHash
    (fun _ => some [1]) (fun _ => some [2]) (fun _ => true) (fun _ => true) [] ["a"]
    (fun b => demoHash_ne_empty b)
    (fun _ _ => rfl) (fun _ _ => rfl)
    (fun f _ => ⟨[1], rfl, by decide⟩)
    (fun _ _ => rfl)
    (fun f _ b1 b2 h1 h2 heq => by
      injection h1 with h1
      injection h2 with h2
      subst h1
      subst h2
      exact absurd heq (by decide))
  rw [h]
  decide

/-- C2 counterexample: the single candidate's content changes between the
runs (from `[1]` to the empty file), so the claim predicts `uploaded = 1`
on the second run; the code returns `uploaded = 0` because `uploadFile`
skips empty files. -/
theorem initialSync_changed_empty_counterexample :
    (fun _ => some [1] : String → Option Bytes) "a" ≠
      (fun _ => some [] : String → Option Bytes) "a"
    ∧ (initialSyncM demoHash (fun _ => some []) (fun _ => true)
        (initialSyncM demoHash (fun _ => some [1]) (fun _ => true) [] ["a"]).1.remote
        ["a"]).1.uploaded = 0 := by
  exact ⟨by decide, by decide⟩

theorem run_counts (hash : Bytes → String) (fs : String → Option Bytes)
    (uploadOk : String → Bool) (storeHashes : List (String × String)) (total : Nat) :
    ∀ (files : List String) (st : SyncState),
      (files.foldl (syncStep hash fs uploadOk storeHashes total) st).processed =
        st.processed + (files.filter (fun f => (fs f).isSome)).length
      ∧ (files.foldl (syncStep hash fs uploadOk storeHashes total) st).events.map
            (fun e => e.filePath) =
          st.events.map (fun e => e.filePath) ++ files := by
  intro files
  induction files with
  | nil => intro st; simp
  | cons f0 rest ih =>
    intro st
    rw [List.foldl_cons, List.filter_cons]
    have hstep : (syncStep hash fs uploadOk storeHashes total st f0).processed =
          st.processed + (if (fs f0).isSome then 1 else 0)
        ∧ (syncStep hash fs uploadOk storeHashes total st f0).events.map
              (fun e => e.filePath) =
            st.events.map (fun e => e.filePath) ++ [f0] := by
      rw [syncStep_eq]
      rcases hfs : fs f0 with _ | b
      · simp
      · by_cases hn : needUploadB hash storeHashes f0 b = true
        · by_cases hb : b.length = 0
          · simp [hn, hb]
          · by_cases hok : uploadOk f0 = true
            · simp [hn, hb, hok]
            · simp [hn, hb, hok]
        · simp [hn]
    obtain ⟨ih1, ih2⟩ := ih (syncStep hash fs uploadOk storeHashes total st f0)
    constructor
    · rw [ih1, hstep.1]
      cases hso : (fs f0).isSome with
      | true => simp [hso]; omega
      | false => simp [hso]
    · rw [ih2, hstep.2]
      simp

/-- C3 (corrected): the aggregate is always returned (the model is a total
function) with `total` the candidate count, and every candidate file —
readable or not, upload failed or not — triggers exactly one `onProgress`
call; but `processed` counts only the candidates whose read succeeds: a
read failure jumps to the catch block BEFORE the `processed += 1` line, so
the counter is not incremented for that file (upload failures, which occur
after the increment, are counted). -/
theorem initialSync_failure_accounting_amended (hash : Bytes → String)
    (fs : String → Option Bytes) (uploadOk : String → Bool)
    (remote0 : List (String × String)) (files : List String) :
    (initialSyncM hash fs uploadOk remote0 files).2 = files.length
    ∧ (initialSyncM hash fs uploadOk remote0 files).1.processed =
        (files.filter (fun f => (fs f).isSome)).length
    ∧ (initialSyncM hash fs uploadOk remote0 files).1.events.map
        (fun e => e.filePath) = files := by
  refine ⟨rfl, ?_, ?_⟩
  · have h :=
      (run_counts hash fs uploadOk remote0 files.length files ⟨0, 0, remote0, [], 0⟩).1
    simpa using h
  · have h :=
      (run_counts hash fs uploadOk remote0 files.length files ⟨0, 0, remote0, [], 0⟩).2
    simpa using h

/-- C3 counterexample: a single candidate whose read fails is reported
`processed = 0` out of `total = 1` — the claim's "processed counting every
candidate file" would require `processed = 1`. -/
theorem initialSync_processed_counterexample :
    (initialSyncM (fun _ => "h") (fun _ => none) (fun _ => true) [] ["a"]).1.processed = 0
    ∧ (initialSyncM (fun _ => "h") (fun _ => none) (fun _ => true) [] ["a"]).2 = 1 :=
  ⟨rfl, rfl⟩

end Osgrep